import Mathlib

/-!
Verification development for the MADCounter text-analysis program
(`MADCounter.c`).  C strings are modelled as lists of byte values
(`List Nat`), the `WORD` doubly-linked list as a `List` of records, file
contents as byte lists, and the observable behaviour of a run (error
messages, opening the output sink, report sections) as a list of events.
-/

/-- Byte-wise comparison of two C strings (modelled as lists of byte
values), as computed by `strcmp`: the first differing position decides,
and a strict prefix compares below the longer string (the NUL terminator
is below every content byte). -/
def strcmp : List Nat → List Nat → Ordering
  | [], [] => .eq
  | [], _ :: _ => .lt
  | _ :: _, [] => .gt
  | a :: as, b :: bs =>
      if a < b then .lt else if b < a then .gt else strcmp as bs

/-- The `WORD` record of `MADCounter.c`: token text, its length, its
frequency and the 0-based index of its first appearance.  The `prevWord` /
`nextWord` links are represented by the position of the record inside a
`List WORD`. -/
structure WORD where
  contents : List Nat
  numChars : Nat
  frequency : Nat
  orderAppeared : Nat
deriving DecidableEq, Repr

/-- Duplicate branch of `insertWord` / `insertLine`: walk the list looking
for an entry whose text compares equal to `w`; on the first such entry only
its frequency is incremented and the rest of the list is returned
unchanged. -/
def bumpFreq : List WORD → List Nat → List WORD
  | [], _ => []
  | e :: rest, w =>
      if strcmp e.contents w = .eq then
        { e with frequency := e.frequency + 1 } :: rest
      else e :: bumpFreq rest w

/-- New-node branch of `insertWord` / `insertLine`: the search loop of the
C code advances while the current node compares below the new text and a
successor exists; the new node is spliced before the stopping node when
that node compares above the new text and after it otherwise. -/
def insertNew (n : WORD) : List WORD → List WORD
  | [] => [n]
  | [e] => if strcmp e.contents n.contents = .gt then [n, e] else [e, n]
  | e :: f :: rest =>
      if strcmp e.contents n.contents = .lt then e :: insertNew n (f :: rest)
      else if strcmp e.contents n.contents = .gt then n :: e :: f :: rest
      else e :: n :: f :: rest

/-- Construction of the fresh node in `insertWord` / `insertLine`:
frequency 1 and the appearance index passed by the caller. -/
def mkWord (w : List Nat) (position : Nat) : WORD :=
  { contents := w, numChars := w.length, frequency := 1,
    orderAppeared := position }

/-- `insertWord` of `MADCounter.c`: first scan for a duplicate and, when
one is found, increment only its frequency; otherwise splice a fresh node
at its alphabetical position. -/
def insertWord (head : List WORD) (w : List Nat) (position : Nat) :
    List WORD :=
  if head.any (fun e => strcmp e.contents w == .eq) then bumpFreq head w
  else insertNew (mkWord w position) head

/-- `insertLine` of `MADCounter.c`; its body is the same algorithm as
`insertWord`. -/
def insertLine (head : List WORD) (line : List Nat) (position : Nat) :
    List WORD :=
  if head.any (fun e => strcmp e.contents line == .eq) then bumpFreq head line
  else insertNew (mkWord line position) head

/-- Strict byte-wise "below" order on token entries, the order maintained
by the collection. -/
def TClt (a b : WORD) : Prop := strcmp a.contents b.contents = .lt

instance : DecidableRel TClt := fun a b => by
  unfold TClt; infer_instance

/-- Token collections reachable from the empty collection by a sequence of
`insertWord` / `insertLine` operations. -/
inductive Reachable : List WORD → Prop
  | nil : Reachable []
  | word {l : List WORD} (w : List Nat) (p : Nat) :
      Reachable l → Reachable (insertWord l w p)
  | line {l : List WORD} (w : List Nat) (p : Nat) :
      Reachable l → Reachable (insertLine l w p)

/-- Whitespace class used by `fscanf`'s `%s` conversion in
`countTotalWords` / `buildWordList`: space, tab, newline, vertical tab,
form feed, carriage return. -/
def isspaceByte (c : Nat) : Bool := c == 32 || (9 ≤ c && c ≤ 13)

/-- Token splitter; `acc` is the reversed run of non-delimiter bytes read
so far.  Produces the maximal non-delimiter runs of the input, in order,
never an empty token — the behaviour both of repeated `fscanf "%s"` (with
the whitespace class) and of a `strtok` loop (with a single delimiter
byte). -/
def splitGo (d : Nat → Bool) : List Nat → List Nat → List (List Nat)
  | acc, [] => if acc.isEmpty then [] else [acc.reverse]
  | acc, c :: rest =>
      if d c then
        if acc.isEmpty then splitGo d [] rest
        else acc.reverse :: splitGo d [] rest
      else splitGo d (c :: acc) rest

def splitTokens (d : Nat → Bool) (s : List Nat) : List (List Nat) :=
  splitGo d [] s

/-- The word stream of the input file, as read by `fscanf "%s"` in
`buildWordList`. -/
def extractWords (s : List Nat) : List (List Nat) :=
  splitTokens isspaceByte s

/-- The read loop shared by `buildWordList` and `buildLineList`: insert the
extracted tokens one by one, threading the 0-based token index. -/
def insertAll (ins : List WORD → List Nat → Nat → List WORD) :
    List WORD → Nat → List (List Nat) → List WORD
  | head, _, [] => head
  | head, i, w :: ws => insertAll ins (ins head w i) (i + 1) ws

/-- `buildWordList` of `MADCounter.c`: the collection, the total word
count, and the unique word count obtained by traversing the final list. -/
def buildWordList (s : List Nat) : List WORD × Nat × Nat :=
  let ws := extractWords s
  let head := insertAll insertWord [] 0 ws
  (head, ws.length, head.length)

/-- One printed row of the word/line report: text, frequency, initial
position — in the order the entries are linked. -/
def entryRows (head : List WORD) : List (List Nat × Nat × Nat) :=
  head.map (fun e => (e.contents, e.frequency, e.orderAppeared))

/-- The word-analysis section of `printWordAnalysis`: total, unique, then
one row per entry in list (alphabetical) order. -/
def wordSection (s : List Nat) : Nat × Nat × List (List Nat × Nat × Nat) :=
  let r := buildWordList s
  (r.2.1, r.2.2, entryRows r.1)

/-- Splitter matching the `fgets` read loops: the file is cut at newline
bytes, the trailing newline of each record is stripped (as the callers
strip it), and a final fragment without a newline still forms a line. -/
def linesGo : List Nat → List Nat → List (List Nat)
  | acc, [] => if acc.isEmpty then [] else [acc.reverse]
  | acc, c :: rest =>
      if c == 10 then acc.reverse :: linesGo [] rest
      else linesGo (c :: acc) rest

def linesOf (s : List Nat) : List (List Nat) := linesGo [] s

/-- `buildLineList` of `MADCounter.c`. -/
def buildLineList (s : List Nat) : List WORD × Nat × Nat :=
  let ls := linesOf s
  let head := insertAll insertLine [] 0 ls
  (head, ls.length, head.length)

/-- The line-analysis section of `printLineAnalysis`. -/
def lineSection (s : List Nat) : Nat × Nat × List (List Nat × Nat × Nat) :=
  let r := buildLineList s
  (r.2.1, r.2.2, entryRows r.1)

/-- Greater-than test used by the tie sort in `printLongestWord` /
`printLongestLine`. -/
def gtW (a b : WORD) : Bool := strcmp a.contents b.contents == .gt

/-- Non-strict alphabetical order on entries ("does not compare above"). -/
def leW (a b : WORD) : Prop := strcmp a.contents b.contents ≠ .gt

instance : DecidableRel leW := fun a b => by
  unfold leW; infer_instance

/-- One outer iteration of the exchange sort of `printLongestWord`: the
inner loop compares slot `i` against every later slot `j` and swaps on
greater-than; `c` is the running value of slot `i`, the returned list the
later slots after the sweep. -/
def sweep : WORD → List WORD → WORD × List WORD
  | c, [] => (c, [])
  | c, y :: ys =>
      if gtW c y then
        let r := sweep y ys
        (r.1, c :: r.2)
      else
        let r := sweep c ys
        (r.1, y :: r.2)

/-- The double swap loop of `printLongestWord`, with fuel bounding the
number of outer iterations (the callers pass the list length). -/
def exchangeSortFuel : Nat → List WORD → List WORD
  | 0, l => l
  | _ + 1, [] => []
  | fuel + 1, x :: xs =>
      let r := sweep x xs
      r.1 :: exchangeSortFuel fuel r.2

def exchangeSort (l : List WORD) : List WORD := exchangeSortFuel l.length l

/-- First pass of `printLongestWord` / `printLongestLine`: running maximum
of the entry lengths, starting from 0. -/
def maxLen (l : List WORD) : Nat :=
  l.foldl (fun m e => if e.numChars > m then e.numChars else m) 0

/-- `printLongestWord` of `MADCounter.c`: no output for the empty
collection; otherwise the maximum length together with the entries of that
length, collected in list order and then sorted alphabetically. -/
def printLongestWord (l : List WORD) : Option (Nat × List WORD) :=
  if l.isEmpty then none
  else some (maxLen l, exchangeSort (l.filter (fun e => e.numChars == maxLen l)))

/-- `printLongestLine` of `MADCounter.c`; same algorithm as
`printLongestWord`. -/
def printLongestLine (l : List WORD) : Option (Nat × List WORD) :=
  if l.isEmpty then none
  else some (maxLen l, exchangeSort (l.filter (fun e => e.numChars == maxLen l)))

/-- The state of `analyzeCharacters`: the two 128-slot arrays (modelled as
functions of the byte value) and the running unique-character count. -/
structure CharTally where
  freq : Nat → Nat
  firstPos : Nat → Nat
  unique : Nat

/-- Loop body of `analyzeCharacters` for one byte `c` read at offset
`pos`: on a first sighting the first position is recorded and the unique
count incremented; the frequency always increments. -/
def tallyStep (t : CharTally) (pos c : Nat) : CharTally :=
  if t.freq c = 0 then
    { freq := fun i => if i = c then t.freq i + 1 else t.freq i,
      firstPos := fun i => if i = c then pos else t.firstPos i,
      unique := t.unique + 1 }
  else
    { t with freq := fun i => if i = c then t.freq i + 1 else t.freq i }

/-- The read loop of `analyzeCharacters`, threading the byte offset. -/
def tallyGo : List Nat → Nat → CharTally → CharTally
  | [], _, t => t
  | c :: rest, pos, t => tallyGo rest (pos + 1) (tallyStep t pos c)

/-- `analyzeCharacters` of `MADCounter.c`: both arrays zero-initialised,
offset starting at 0. -/
def analyzeCharacters (s : List Nat) : CharTally :=
  tallyGo s 0 { freq := fun _ => 0, firstPos := fun _ => 0, unique := 0 }

/-- The rows printed by `printCharacterAnalysis`: for each byte value
0..127 with a positive count, in ascending order of the value: the value,
its count, its first position. -/
def charRows (t : CharTally) : List (Nat × Nat × Nat) :=
  (List.range 128).filterMap
    (fun i => if t.freq i > 0 then some (i, t.freq i, t.firstPos i) else none)

/-- The character-analysis section as emitted by `analyzeFile`: the total
handed to `printCharacterAnalysis` is the file size, i.e. the byte length
of the input. -/
def charSection (s : List Nat) : Nat × Nat × List (Nat × Nat × Nat) :=
  (s.length, (analyzeCharacters s).unique, charRows (analyzeCharacters s))

/-- The five analysis kinds, in the order of the `FLAG_` constants. -/
inductive FlagKind
  | C
  | W
  | L
  | LW
  | LL
deriving DecidableEq, Repr

/-- The error messages the program can print. -/
inductive Err
  | usage
  | invalidFlag
  | batchOpen
  | batchEmpty
  | noInputFile
  | cantOpenInput
  | noOutputFile
  | inputFileEmpty
  | cantOpenOutput
deriving DecidableEq, Repr

/-- One piece of report output: a section of a given kind, or the blank
separator line printed at the top of a print-loop iteration. -/
inductive Chunk
  | blank
  | sec (f : FlagKind)
deriving DecidableEq, Repr

/-- Observable events of a run: an error message, the successful opening
(and hence truncation) of the `-o` output file, or report output. -/
inductive Ev
  | err (e : Err)
  | openOut
  | out (c : Chunk)
deriving DecidableEq, Repr

/-- The data Phase 2 of `analyzeFile` consults when deciding whether a
section prints: the two collections and the two totals. -/
structure RenderState where
  wordList : List WORD
  totalWords : Nat
  lineList : List WORD
  totalLines : Nat
deriving Repr

/-- The guard of each `case` of the print loop of `analyzeFile`: `-c`
prints unconditionally; `-w` / `-l` print when the list is non-null or the
total is zero; `-Lw` / `-Ll` print only when the list is non-null. -/
def emits (st : RenderState) : FlagKind → Bool
  | .C => true
  | .W => !st.wordList.isEmpty || st.totalWords == 0
  | .L => !st.lineList.isEmpty || st.totalLines == 0
  | .LW => !st.wordList.isEmpty
  | .LL => !st.lineList.isEmpty

/-- Phase 2 of `analyzeFile`: iterate over the recorded flag order,
printing the blank separator at the top of every iteration once some
section has been emitted, then the section of the current kind if its
guard holds. -/
def render (st : RenderState) : List FlagKind → Bool → List Chunk
  | [], _ => []
  | f :: rest, first =>
      (if first then ([] : List Chunk) else [Chunk.blank]) ++
      (if emits st f then Chunk.sec f :: render st rest false
       else render st rest first)

/-- Chunks produced after the first emitted section: one blank per
remaining requested kind, followed by that kind's section when its guard
holds. -/
def tailChunks (st : RenderState) : List FlagKind → List Chunk
  | [] => []
  | g :: rest => Chunk.blank ::
      ((if emits st g then [Chunk.sec g] else []) ++ tailChunks st rest)

/-- The amended rendering contract: the non-emitting prefix produces
nothing; from the first emitted section on, every later requested kind is
preceded by one blank line whether or not it emits. -/
def specRender (st : RenderState) : List FlagKind → List Chunk
  | [] => []
  | f :: rest =>
      if emits st f then Chunk.sec f :: tailChunks st rest
      else specRender st rest

/-- The section-emission notion of the original claim text: a requested
kind whose underlying collection is empty contributes no section (the
character tally of a non-empty file is never empty). -/
def specEmits (st : RenderState) : FlagKind → Bool
  | .C => true
  | .W => !st.wordList.isEmpty
  | .L => !st.lineList.isEmpty
  | .LW => !st.wordList.isEmpty
  | .LL => !st.lineList.isEmpty

def chunkSec : Chunk → Option FlagKind
  | .blank => none
  | .sec f => some f

/-- A validated request: the Request Model. -/
structure Request where
  inputFile : List Nat
  outputFile : Option (List Nat)
  reqC : Bool
  reqW : Bool
  reqL : Bool
  reqLw : Bool
  reqLl : Bool
  flagOrder : List FlagKind
deriving DecidableEq, Repr

/-- Parser state of `parseArguments` before the final input-file check. -/
structure PState where
  inputFile : Option (List Nat)
  outputFile : Option (List Nat)
  reqC : Bool
  reqW : Bool
  reqL : Bool
  reqLw : Bool
  reqLl : Bool
  flagOrder : List FlagKind
deriving DecidableEq, Repr

def initPS : PState :=
  { inputFile := none, outputFile := none, reqC := false, reqW := false,
    reqL := false, reqLw := false, reqLl := false, flagOrder := [] }

def getReq (st : PState) : FlagKind → Bool
  | .C => st.reqC
  | .W => st.reqW
  | .L => st.reqL
  | .LW => st.reqLw
  | .LL => st.reqLl

def setReq (st : PState) : FlagKind → PState
  | .C => { st with reqC := true }
  | .W => { st with reqW := true }
  | .L => { st with reqL := true }
  | .LW => { st with reqLw := true }
  | .LL => { st with reqLl := true }

/-- FlagKind bookkeeping of `parseArguments`: on a kind's first occurrence it
is appended to the order list; repeats only re-set the request bit. -/
def addFlag (st : PState) (f : FlagKind) : PState :=
  setReq (if getReq st f then st
          else { st with flagOrder := st.flagOrder ++ [f] }) f

def fStr : List Nat := [45, 102]

def oStr : List Nat := [45, 111]

def cStr : List Nat := [45, 99]

def wStr : List Nat := [45, 119]

def lStr : List Nat := [45, 108]

def lwStr : List Nat := [45, 76, 119]

def llStr : List Nat := [45, 76, 108]

def bStr : List Nat := [45, 66]

/-- The argument loop of `parseArguments`, over the arguments after the
program name.  Flags start with the dash byte 45; `-f` / `-o` consume the
following argument, which must not itself start with a dash; unknown
flags and non-flag arguments abort with InvalidFlag; the final check
requires an input file to have been set. -/
def parseLoop : List (List Nat) → PState → Except Err Request
  | [], st =>
      match st.inputFile with
      | none => .error .noInputFile
      | some f =>
          .ok { inputFile := f, outputFile := st.outputFile,
                reqC := st.reqC, reqW := st.reqW, reqL := st.reqL,
                reqLw := st.reqLw, reqLl := st.reqLl,
                flagOrder := st.flagOrder }
  | a :: rest, st =>
      if a.head? = some 45 then
        if a = fStr then
          match rest with
          | [] => .error .noInputFile
          | n :: rest' =>
              if n.head? = some 45 then .error .noInputFile
              else parseLoop rest' { st with inputFile := some n }
        else if a = oStr then
          match rest with
          | [] => .error .noOutputFile
          | n :: rest' =>
              if n.head? = some 45 then .error .noOutputFile
              else parseLoop rest' { st with outputFile := some n }
        else if a = cStr then parseLoop rest (addFlag st .C)
        else if a = wStr then parseLoop rest (addFlag st .W)
        else if a = lStr then parseLoop rest (addFlag st .L)
        else if a = lwStr then parseLoop rest (addFlag st .LW)
        else if a = llStr then parseLoop rest (addFlag st .LL)
        else .error .invalidFlag
      else .error .invalidFlag

/-- The file system visible to a run: contents of readable files (by
name) and whether a name can be opened for writing. -/
structure FS where
  input : List Nat → Option (List Nat)
  outOpens : List Nat → Bool

/-- Phase 1 of `analyzeFile`: each collection is built only when a flag
needing it was requested. -/
def stateFor (req : Request) (s : List Nat) : RenderState :=
  let w := if req.reqW || req.reqLw then buildWordList s else ([], 0, 0)
  let l := if req.reqL || req.reqLl then buildLineList s else ([], 0, 0)
  { wordList := w.1, totalWords := w.2.1,
    lineList := l.1, totalLines := l.2.1 }

/-- `analyzeFile` of `MADCounter.c`: open the input (CantOpenInputFile on
failure), reject a zero-byte file (InputFileEmpty), only then open the
`-o` sink when one was given (truncating it), build the collections, and
render the report.  Returns the event stream and the success flag. -/
def analyzeFile (fs : FS) (req : Request) : List Ev × Bool :=
  match fs.input req.inputFile with
  | none => ([Ev.err Err.cantOpenInput], false)
  | some s =>
      if s.length = 0 then ([Ev.err Err.inputFileEmpty], false)
      else
        let body := (render (stateFor req s) req.flagOrder true).map Ev.out
        match req.outputFile with
        | none => (body, true)
        | some f =>
            if fs.outOpens f then (Ev.openOut :: body, true)
            else ([Ev.err Err.cantOpenOutput], false)

/-- The single-run tail of `main`: run `analyzeFile`, exit 0 on success
and 1 on error. -/
def runSingle (fs : FS) (req : Request) : List Ev × Nat :=
  let r := analyzeFile fs req
  (r.1, if r.2 then 0 else 1)

/-- Tokenization of one batch line by `strtok(lineCopy, " ")`: space bytes
only. -/
def spaceTokens (line : List Nat) : List (List Nat) :=
  splitTokens (fun c => c == 32) line

/-- One batch line as processed by the loop body of `processBatchFile`:
blank lines are skipped; the line is cut at space bytes into at most
`MAX_TOKENS` = 100 tokens; only lines yielding a synthetic `argc` of at
least 3 (two or more tokens) are parsed and, when valid, analysed. -/
def perLine (fs : FS) (line : List Nat) : List Ev :=
  if line.length = 0 then []
  else if 2 ≤ ((spaceTokens line).take 100).length then
    match parseLoop ((spaceTokens line).take 100) initPS with
    | .error e => [Ev.err e]
    | .ok req => (analyzeFile fs req).1
  else []

/-- The line loop of `processBatchFile`. -/
def batchLines (fs : FS) : List (List Nat) → List Ev
  | [] => []
  | l :: rest => perLine fs l ++ batchLines fs rest

/-- `processBatchFile` of `MADCounter.c`: CantOpenBatchFile when the
control file cannot be opened, BatchFileEmpty when the first read already
hits end of file, otherwise every line is processed. -/
def processBatchFile (fs : FS) (name : List Nat) : List Ev :=
  match fs.input name with
  | none => [Ev.err Err.batchOpen]
  | some s =>
      if s.length = 0 then [Ev.err Err.batchEmpty]
      else batchLines fs (linesOf s)

/-- `main`: fewer than three arguments print usage and exit 1; `-B`
dispatches to the batch driver and always exits 0; otherwise the
arguments after the program name are parsed and the file analysed. -/
def mainModel (fs : FS) : List (List Nat) → List Ev × Nat
  | _ :: a1 :: a2 :: rest =>
      if a1 = bStr then (processBatchFile fs a2, 0)
      else
        match parseLoop (a1 :: a2 :: rest) initPS with
        | .error e => ([Ev.err e], 1)
        | .ok req => runSingle fs req
  | _ => ([Ev.err Err.usage], 1)

/-- The per-line behaviour asserted by the original claim C9 for the
batch driver: every non-empty line is tokenized by whitespace and
validated, and the pipeline runs when validation succeeds. -/
def specPerLine (fs : FS) (line : List Nat) : List Ev :=
  if line.length = 0 then []
  else
    match parseLoop (splitTokens isspaceByte line) initPS with
    | .error e => [Ev.err e]
    | .ok req => (analyzeFile fs req).1

/-- Request `-f in -w -Lw`, as validated. -/
def req0 : Request :=
  { inputFile := [105, 110], outputFile := none, reqC := false,
    reqW := true, reqL := false, reqLw := true, reqLl := false,
    flagOrder := [FlagKind.W, FlagKind.LW] }

/-- A file system whose input file "in" holds a single space byte. -/
def fs0 : FS :=
  { input := fun n => if n = [105, 110] then some [32] else none,
    outOpens := fun _ => true }

/-- A file system with batch file "b" = "-z x\n-f in -w\n" and input file
"in" = "hi". -/
def fsB : FS :=
  { input := fun n =>
      if n = [98] then
        some [45, 122, 32, 120, 10, 45, 102, 32, 105, 110, 32, 45, 119, 10]
      else if n = [105, 110] then some [104, 105]
      else none,
    outOpens := fun _ => true }

/-- A file system with batch file "b" holding the single line "-c". -/
def fs9 : FS :=
  { input := fun n => if n = [98] then some [45, 99, 10] else none,
    outOpens := fun _ => true }

/-- A file system on which every file reads as zero bytes. -/
def fsEmpty : FS :=
  { input := fun _ => some [], outOpens := fun _ => true }

/-- A file system on which no file can be opened. -/
def fsNone : FS :=
  { input := fun _ => none, outOpens := fun _ => true }

/-- A request with every flag and an output file. -/
def reqAll : Request :=
  { inputFile := [105], outputFile := some [111], reqC := true,
    reqW := true, reqL := true, reqLw := true, reqLl := true,
    flagOrder := [FlagKind.C, FlagKind.W, FlagKind.L, FlagKind.LW, FlagKind.LL] }

theorem strcmp_eq_iff (a b : List Nat) : strcmp a b = .eq ↔ a = b := by
  induction a generalizing b with
  | nil => cases b <;> simp [strcmp]
  | cons x xs ih =>
      cases b with
      | nil => simp [strcmp]
      | cons y ys =>
          simp only [strcmp]
          split_ifs with h1 h2
          · constructor
            · intro h; exact absurd h (by decide)
            · intro h
              injection h with h1' h2'
              omega
          · constructor
            · intro h; exact absurd h (by decide)
            · intro h
              injection h with h1' h2'
              omega
          · have hxy : x = y := by omega
            subst hxy
            simp [ih]

theorem strcmp_gt_iff (a b : List Nat) :
    strcmp a b = .gt ↔ strcmp b a = .lt := by
  induction a generalizing b with
  | nil => cases b <;> simp [strcmp]
  | cons x xs ih =>
      cases b with
      | nil => simp [strcmp]
      | cons y ys =>
          simp only [strcmp]
          split_ifs with h1 h2 <;>
            first
              | (constructor <;> (intro h; exact absurd h (by decide)))
              | (constructor <;> intro h <;> first | rfl | omega)
              | exact ih ys

theorem strcmp_lt_trans {a b c : List Nat}
    (hab : strcmp a b = .lt) (hbc : strcmp b c = .lt) :
    strcmp a c = .lt := by
  induction a generalizing b c with
  | nil =>
      cases b with
      | nil => exact absurd hab (by simp [strcmp])
      | cons y ys =>
          cases c with
          | nil => exact absurd hbc (by simp [strcmp])
          | cons z zs => simp [strcmp]
  | cons x xs ih =>
      cases b with
      | nil => exact absurd hab (by simp [strcmp])
      | cons y ys =>
          cases c with
          | nil => exact absurd hbc (by simp [strcmp])
          | cons z zs =>
              simp only [strcmp] at hab hbc ⊢
              by_cases h1 : x < y
              · by_cases h3 : y < z
                · simp [show x < z by omega]
                · by_cases h4 : z < y
                  · rw [if_neg h3, if_pos h4] at hbc
                    exact absurd hbc (by decide)
                  · simp [show x < z by omega]
              · by_cases h2 : y < x
                · rw [if_neg h1, if_pos h2] at hab
                  exact absurd hab (by decide)
                · rw [if_neg h1, if_neg h2] at hab
                  by_cases h3 : y < z
                  · simp [show x < z by omega]
                  · by_cases h4 : z < y
                    · rw [if_neg h3, if_pos h4] at hbc
                      exact absurd hbc (by decide)
                    · rw [if_neg h3, if_neg h4] at hbc
                      rw [if_neg (show ¬ x < z by omega),
                        if_neg (show ¬ z < x by omega)]
                      exact ih hab hbc

theorem strcmp_le_trans {a b c : List Nat}
    (hab : strcmp a b ≠ .gt) (hbc : strcmp b c ≠ .gt) :
    strcmp a c ≠ .gt := by
  cases hab' : strcmp a b with
  | eq => rw [strcmp_eq_iff] at hab'; subst hab'; exact hbc
  | gt => exact absurd hab' hab
  | lt =>
      cases hbc' : strcmp b c with
      | eq => rw [strcmp_eq_iff] at hbc'; subst hbc'; simp [hab']
      | gt => exact absurd hbc' hbc
      | lt =>
          have := strcmp_lt_trans hab' hbc'
          simp [this]

/-- Membership in the spliced list: every element is either the new node
or one of the old nodes. -/
theorem mem_insertNew {x n : WORD} : ∀ {l : List WORD},
    x ∈ insertNew n l → x = n ∨ x ∈ l := by
  intro l
  induction l with
  | nil => intro h; simp [insertNew] at h; exact Or.inl h
  | cons e rest ih =>
      cases rest with
      | nil =>
          intro h
          simp only [insertNew] at h
          split_ifs at h <;> simp at h ⊢ <;> tauto
      | cons f rest' =>
          intro h
          simp only [insertNew] at h
          split_ifs at h
          · rcases List.mem_cons.mp h with rfl | h'
            · exact Or.inr (by simp)
            · rcases ih h' with h'' | h''
              · exact Or.inl h''
              · exact Or.inr (List.mem_cons_of_mem e h'')
          · rcases List.mem_cons.mp h with rfl | h'
            · exact Or.inl rfl
            · exact Or.inr h'
          · rcases List.mem_cons.mp h with rfl | h'
            · exact Or.inr (by simp)
            · rcases List.mem_cons.mp h' with rfl | h''
              · exact Or.inl rfl
              · exact Or.inr (List.mem_cons_of_mem e h'')

/-- Splicing a text that is not already present preserves strict
alphabetical sortedness. -/
theorem pairwise_insertNew {n : WORD} : ∀ {l : List WORD},
    l.Pairwise TClt → (∀ e ∈ l, strcmp e.contents n.contents ≠ .eq) →
    (insertNew n l).Pairwise TClt := by
  intro l
  induction l with
  | nil => intro _ _; simp [insertNew]
  | cons e rest ih =>
      intro hs hd
      cases rest with
      | nil =>
          simp only [insertNew]
          split_ifs with hgt
          · refine List.pairwise_cons.mpr ⟨?_, by simp⟩
            intro e' he'
            simp only [List.mem_singleton] at he'
            rw [he']
            exact (strcmp_gt_iff _ _).mp hgt
          · refine List.pairwise_cons.mpr ⟨?_, by simp⟩
            intro e' he'
            simp only [List.mem_singleton] at he'
            rw [he']
            have hne := hd e (by simp)
            show strcmp e.contents n.contents = .lt
            cases h : strcmp e.contents n.contents with
            | lt => rfl
            | eq => exact absurd h hne
            | gt => exact absurd h hgt
      | cons f rest' =>
          have hs1 := List.pairwise_cons.mp hs
          simp only [insertNew]
          split_ifs with hlt hgt
          · refine List.pairwise_cons.mpr ⟨?_, ?_⟩
            · intro x hx
              rcases mem_insertNew hx with rfl | hx'
              · exact hlt
              · exact hs1.1 x hx'
            · exact ih hs1.2 (fun e' he' => hd e' (List.mem_cons_of_mem e he'))
          · refine List.pairwise_cons.mpr ⟨?_, hs⟩
            intro x hx
            have hne : TClt n e := (strcmp_gt_iff _ _).mp hgt
            rcases List.mem_cons.mp hx with rfl | hx'
            · exact hne
            · exact strcmp_lt_trans hne (hs1.1 x hx')
          · exfalso
            refine hd e (by simp) ?_
            cases h : strcmp e.contents n.contents with
            | lt => exact absurd h hlt
            | gt => exact absurd h hgt
            | eq => rfl

/-- Every element of `bumpFreq l w` carries the text of some element of
`l`. -/
theorem mem_bumpFreq_contents {x : WORD} (w : List Nat) : ∀ {l : List WORD},
    x ∈ bumpFreq l w → ∃ y ∈ l, y.contents = x.contents := by
  intro l
  induction l with
  | nil => intro h; simp [bumpFreq] at h
  | cons e rest ih =>
      simp only [bumpFreq]
      split_ifs with h
      · intro hx
        rcases List.mem_cons.mp hx with rfl | hx'
        · exact ⟨e, by simp, rfl⟩
        · exact ⟨x, List.mem_cons_of_mem e hx', rfl⟩
      · intro hx
        rcases List.mem_cons.mp hx with rfl | hx'
        · exact ⟨x, by simp, rfl⟩
        · rcases ih hx' with ⟨y, hy, hyc⟩
          exact ⟨y, List.mem_cons_of_mem e hy, hyc⟩

/-- Incrementing the frequency of a duplicate does not change any text,
hence preserves sortedness. -/
theorem pairwise_bumpFreq (w : List Nat) : ∀ {l : List WORD},
    l.Pairwise TClt → (bumpFreq l w).Pairwise TClt := by
  intro l
  induction l with
  | nil => intro _; simp [bumpFreq]
  | cons e rest ih =>
      intro hs
      have h1 := List.pairwise_cons.mp hs
      simp only [bumpFreq]
      split_ifs with h
      · exact List.pairwise_cons.mpr ⟨fun x hx => h1.1 x hx, h1.2⟩
      · refine List.pairwise_cons.mpr ⟨?_, ih h1.2⟩
        intro x hx
        rcases mem_bumpFreq_contents w hx with ⟨y, hy, hyc⟩
        have := h1.1 y hy
        unfold TClt at this ⊢
        rw [← hyc]
        exact this

theorem pairwise_insertWord {l : List WORD} (w : List Nat) (p : Nat)
    (hs : l.Pairwise TClt) : (insertWord l w p).Pairwise TClt := by
  unfold insertWord
  split_ifs with h
  · exact pairwise_bumpFreq w hs
  · refine pairwise_insertNew hs ?_
    intro e he hcon
    apply h
    simp only [List.any_eq_true]
    refine ⟨e, he, ?_⟩
    rw [show strcmp e.contents w = .eq from hcon]
    rfl

theorem pairwise_insertLine {l : List WORD} (w : List Nat) (p : Nat)
    (hs : l.Pairwise TClt) : (insertLine l w p).Pairwise TClt := by
  unfold insertLine
  split_ifs with h
  · exact pairwise_bumpFreq w hs
  · refine pairwise_insertNew hs ?_
    intro e he hcon
    apply h
    simp only [List.any_eq_true]
    refine ⟨e, he, ?_⟩
    rw [show strcmp e.contents w = .eq from hcon]
    rfl

/-- C1: every collection reachable by `insertWord` / `insertLine`
operations from the empty collection is in strictly ascending byte-wise
lexicographic order of its texts, no two of its entries have equal text,
and each single insert preserves strict sortedness. -/
theorem C1_sorted_unique_invariant :
    (∀ l : List WORD, Reachable l →
      l.Pairwise TClt ∧ l.Pairwise (fun a b => a.contents ≠ b.contents)) ∧
    (∀ (l : List WORD) (w : List Nat) (p : Nat), l.Pairwise TClt →
      (insertWord l w p).Pairwise TClt ∧ (insertLine l w p).Pairwise TClt) := by
  have sorted : ∀ l : List WORD, Reachable l → l.Pairwise TClt := by
    intro l hl
    induction hl with
    | nil => simp
    | word w p _ ih => exact pairwise_insertWord w p ih
    | line w p _ ih => exact pairwise_insertLine w p ih
  refine ⟨fun l hl => ⟨sorted l hl, ?_⟩,
    fun l w p hs => ⟨pairwise_insertWord w p hs, pairwise_insertLine w p hs⟩⟩
  refine (sorted l hl).imp ?_
  intro a b hab hcon
  rw [← strcmp_eq_iff] at hcon
  have hab' : strcmp a.contents b.contents = .lt := hab
  rw [hcon] at hab'
  exact absurd hab' (by decide)

/-- Witness for C1 at a concrete reachable collection. -/
theorem C1_witness :
    ((insertLine (insertWord [] [104, 105] 0) [97, 98] 1).Pairwise TClt ∧
      (insertLine (insertWord [] [104, 105] 0) [97, 98] 1).Pairwise
        (fun a b => a.contents ≠ b.contents)) ∧
    ((insertWord [WORD.mk [97] 1 1 0] [98] 1).Pairwise TClt ∧
      (insertLine [WORD.mk [97] 1 1 0] [98] 1).Pairwise TClt) :=
  ⟨C1_sorted_unique_invariant.1 _
      (Reachable.line [97, 98] 1 (Reachable.word [104, 105] 0 Reachable.nil)),
    C1_sorted_unique_invariant.2 [WORD.mk [97] 1 1 0] [98] 1 (by decide)⟩

/-- Decomposition of the duplicate branch: the list splits at the first
entry whose text equals `w`, and only that entry's frequency changes. -/
theorem bumpFreq_decomp (w : List Nat) : ∀ l : List WORD,
    (∃ e ∈ l, e.contents = w) →
    ∃ pre e post,
      l = pre ++ e :: post ∧ e.contents = w ∧
      (∀ e' ∈ pre, e'.contents ≠ w) ∧
      bumpFreq l w = pre ++ { e with frequency := e.frequency + 1 } :: post := by
  intro l
  induction l with
  | nil => intro h; simp at h
  | cons a rest ih =>
      intro h
      by_cases ha : a.contents = w
      · refine ⟨[], a, rest, by simp, ha, by simp, ?_⟩
        simp [bumpFreq, (strcmp_eq_iff _ _).mpr ha]
      · have h' : ∃ e ∈ rest, e.contents = w := by
          rcases h with ⟨e, he, hc⟩
          rcases List.mem_cons.mp he with rfl | he'
          · exact absurd hc ha
          · exact ⟨e, he', hc⟩
        rcases ih h' with ⟨pre, e, post, hl, hc, hpre, hb⟩
        have hne : strcmp a.contents w ≠ .eq := by
          rw [Ne, strcmp_eq_iff]; exact ha
        refine ⟨a :: pre, e, post, by simp [hl], hc, ?_, ?_⟩
        · intro e' he'
          rcases List.mem_cons.mp he' with rfl | he''
          · exact ha
          · exact hpre e' he''
        · simp [bumpFreq, hne, hb]

/-- C4: inserting a token whose text already occurs increments exactly the
frequency of the (first) matching entry; its text, length and
first-appearance index, every other entry, and the link structure of the
collection are unchanged — for `insertWord` and `insertLine` alike. -/
theorem C4_duplicate_frame (l : List WORD) (w : List Nat) (p : Nat)
    (hdup : ∃ e ∈ l, e.contents = w) :
    ∃ pre e post,
      l = pre ++ e :: post ∧ e.contents = w ∧
      (∀ e' ∈ pre, e'.contents ≠ w) ∧
      insertWord l w p =
        pre ++ { e with frequency := e.frequency + 1 } :: post ∧
      insertLine l w p =
        pre ++ { e with frequency := e.frequency + 1 } :: post := by
  have hany : (l.any fun e => strcmp e.contents w == Ordering.eq) = true := by
    rcases hdup with ⟨e, he, hc⟩
    simp only [List.any_eq_true]
    refine ⟨e, he, ?_⟩
    rw [(strcmp_eq_iff _ _).mpr hc]
    rfl
  rcases bumpFreq_decomp w l hdup with ⟨pre, e, post, hl, hc, hpre, hb⟩
  refine ⟨pre, e, post, hl, hc, hpre, ?_, ?_⟩
  · rw [show insertWord l w p = bumpFreq l w by simp [insertWord, hany]]
    exact hb
  · rw [show insertLine l w p = bumpFreq l w by simp [insertLine, hany]]
    exact hb

/-- Witness for C4 on a one-entry collection. -/
theorem C4_witness :
    ∃ pre e post,
      [WORD.mk [97] 1 3 0] = pre ++ e :: post ∧ e.contents = [97] ∧
      (∀ e' ∈ pre, e'.contents ≠ [97]) ∧
      insertWord [WORD.mk [97] 1 3 0] [97] 9 =
        pre ++ { e with frequency := e.frequency + 1 } :: post ∧
      insertLine [WORD.mk [97] 1 3 0] [97] 9 =
        pre ++ { e with frequency := e.frequency + 1 } :: post :=
  C4_duplicate_frame _ _ 9 ⟨WORD.mk [97] 1 3 0, by simp, rfl⟩

/-- C5: for the input "hello world hello\n" analysed with `-w`, the word
analysis reports Total Number of Words 3 and Total Unique Words 2 and
lists exactly "hello" (freq 2, initial position 0) then "world" (freq 1,
initial position 1), in that order. -/
theorem C5_hello_world :
    wordSection [104, 101, 108, 108, 111, 32, 119, 111, 114, 108, 100, 32,
      104, 101, 108, 108, 111, 10] =
    (3, 2, [([104, 101, 108, 108, 111], 2, 0),
            ([119, 111, 114, 108, 100], 1, 1)]) := by decide

theorem leW_refl (a : WORD) : leW a a := by
  unfold leW
  rw [(strcmp_eq_iff _ _).mpr rfl]
  decide

theorem gtW_iff (a b : WORD) :
    gtW a b = true ↔ strcmp a.contents b.contents = .gt := by
  unfold gtW
  cases h : strcmp a.contents b.contents <;> decide

theorem gtW_true_le {a b : WORD} (h : gtW a b = true) : leW b a := by
  unfold leW
  rw [(strcmp_gt_iff _ _).mp ((gtW_iff a b).mp h)]
  decide

theorem gtW_false_le {a b : WORD} (h : gtW a b = false) : leW a b := by
  unfold leW
  intro hc
  have := (gtW_iff a b).mpr hc
  rw [this] at h
  exact absurd h (by decide)

theorem leW_trans {a b c : WORD} (h1 : leW a b) (h2 : leW b c) : leW a c :=
  strcmp_le_trans h1 h2

theorem sweep_snd_length (c : WORD) : ∀ l : List WORD,
    (sweep c l).2.length = l.length := by
  intro l
  induction l generalizing c with
  | nil => simp [sweep]
  | cons y ys ih =>
      cases h : gtW c y <;> simp [sweep, h, ih]

theorem sweep_perm (c : WORD) : ∀ l : List WORD,
    ((sweep c l).1 :: (sweep c l).2).Perm (c :: l) := by
  intro l
  induction l generalizing c with
  | nil => simp [sweep]
  | cons y ys ih =>
      cases h : gtW c y with
      | true =>
          simp only [sweep, h, if_pos]
          exact (List.Perm.swap c (sweep y ys).1 (sweep y ys).2).trans
            ((ih y).cons c)
      | false =>
          simp only [sweep, h]
          exact ((List.Perm.swap y (sweep c ys).1 (sweep c ys).2).trans
            ((ih c).cons y)).trans (List.Perm.swap c y ys)

theorem sweep_min (c : WORD) : ∀ l : List WORD,
    leW (sweep c l).1 c ∧ ∀ z ∈ (sweep c l).2, leW (sweep c l).1 z := by
  intro l
  induction l generalizing c with
  | nil => exact ⟨leW_refl c, by simp [sweep]⟩
  | cons y ys ih =>
      cases h : gtW c y with
      | true =>
          simp only [sweep, h, if_pos]
          have hy := ih y
          have hmc : leW (sweep y ys).1 c := leW_trans hy.1 (gtW_true_le h)
          refine ⟨hmc, ?_⟩
          intro z hz
          rcases List.mem_cons.mp hz with rfl | hz'
          · exact hmc
          · exact hy.2 z hz'
      | false =>
          simp only [sweep, h]
          have hc := ih c
          refine ⟨hc.1, ?_⟩
          intro z hz
          rcases List.mem_cons.mp hz with rfl | hz'
          · exact leW_trans hc.1 (gtW_false_le h)
          · exact hc.2 z hz'

theorem exchangeSortFuel_perm : ∀ (fuel : Nat) (l : List WORD),
    (exchangeSortFuel fuel l).Perm l := by
  intro fuel
  induction fuel with
  | zero => intro l; exact List.Perm.refl l
  | succ n ih =>
      intro l
      cases l with
      | nil => simp [exchangeSortFuel]
      | cons x xs =>
          simp only [exchangeSortFuel]
          exact (((ih (sweep x xs).2).cons (sweep x xs).1).trans
            (sweep_perm x xs))

theorem exchangeSortFuel_sorted : ∀ (fuel : Nat) (l : List WORD),
    l.length ≤ fuel → (exchangeSortFuel fuel l).Pairwise leW := by
  intro fuel
  induction fuel with
  | zero =>
      intro l hl
      have : l = [] := List.length_eq_zero.mp (Nat.le_zero.mp hl)
      subst this
      simp [exchangeSortFuel]
  | succ n ih =>
      intro l hl
      cases l with
      | nil => simp [exchangeSortFuel]
      | cons x xs =>
          simp only [exchangeSortFuel]
          refine List.pairwise_cons.mpr ⟨?_, ih _ ?_⟩
          · intro z hz
            have hz' : z ∈ (sweep x xs).2 :=
              (exchangeSortFuel_perm n _).mem_iff.mp hz
            exact (sweep_min x xs).2 z hz'
          · rw [sweep_snd_length]
            simpa using hl

theorem maxLen_init_le (init : Nat) : ∀ l : List WORD,
    init ≤ l.foldl (fun m e => if e.numChars > m then e.numChars else m) init := by
  intro l
  induction l generalizing init with
  | nil => simp
  | cons a rest ih =>
      simp only [List.foldl_cons]
      refine le_trans ?_ (ih _)
      split_ifs with h <;> omega

theorem maxLen_mem_le (init : Nat) : ∀ (l : List WORD), ∀ e ∈ l,
    e.numChars ≤ l.foldl (fun m e => if e.numChars > m then e.numChars else m) init := by
  intro l
  induction l generalizing init with
  | nil => simp
  | cons a rest ih =>
      intro e he
      rcases List.mem_cons.mp he with rfl | he'
      · simp only [List.foldl_cons]
        refine le_trans ?_ (maxLen_init_le _ rest)
        split_ifs with h <;> omega
      · exact ih _ e he'

theorem maxLen_attained (init : Nat) : ∀ l : List WORD,
    l.foldl (fun m e => if e.numChars > m then e.numChars else m) init = init ∨
    ∃ e ∈ l, l.foldl (fun m e => if e.numChars > m then e.numChars else m) init
      = e.numChars := by
  intro l
  induction l generalizing init with
  | nil => simp
  | cons a rest ih =>
      simp only [List.foldl_cons]
      rcases ih (if a.numChars > init then a.numChars else init) with h | ⟨e, he, heq⟩
      · rw [h]
        split_ifs with ha
        · exact Or.inr ⟨a, by simp, rfl⟩
        · exact Or.inl rfl
      · exact Or.inr ⟨e, List.mem_cons_of_mem a he, heq⟩

/-- C3: for every non-empty collection, the longest-token output reports
the maximum entry length and lists exactly the entries of that length, in
ascending alphabetical order regardless of the order in which they sit in
the collection; for the empty collection it produces no output and no
error — for `printLongestWord` and `printLongestLine` alike. -/
theorem C3_longest (l : List WORD) :
    (l = [] → printLongestWord l = none ∧ printLongestLine l = none) ∧
    (∀ m out, printLongestWord l = some (m, out) ∨
        printLongestLine l = some (m, out) →
      (∀ e ∈ l, e.numChars ≤ m) ∧ (∃ e ∈ l, e.numChars = m) ∧
      out.Perm (l.filter (fun e => e.numChars == m)) ∧
      out.Pairwise leW) := by
  constructor
  · rintro rfl
    simp [printLongestWord, printLongestLine]
  · intro m out h
    have hmain : l.isEmpty = false ∧ m = maxLen l ∧
        out = exchangeSort (l.filter (fun e => e.numChars == maxLen l)) := by
      rcases h with h | h
      · unfold printLongestWord at h
        split_ifs at h with hemp
        rw [Option.some_inj, Prod.mk.injEq] at h
        exact ⟨by simpa using hemp, h.1.symm, h.2.symm⟩
      · unfold printLongestLine at h
        split_ifs at h with hemp
        rw [Option.some_inj, Prod.mk.injEq] at h
        exact ⟨by simpa using hemp, h.1.symm, h.2.symm⟩
    rcases hmain with ⟨hemp, rfl, rfl⟩
    have hne : l ≠ [] := by
      intro hc; rw [hc] at hemp; exact absurd hemp (by simp)
    refine ⟨fun e he => maxLen_mem_le 0 l e he, ?_, ?_, ?_⟩
    · rcases maxLen_attained 0 l with h0 | ⟨e, he, heq⟩
      · cases l with
        | nil => exact absurd rfl hne
        | cons a rest =>
            refine ⟨a, by simp, ?_⟩
            have h1 := maxLen_mem_le 0 (a :: rest) a (by simp)
            unfold maxLen
            omega
      · exact ⟨e, he, heq.symm⟩
    · exact exchangeSortFuel_perm _ _
    · exact exchangeSortFuel_sorted _ _ (le_refl _)

/-- Witness for C3: the empty collection, and a two-entry collection whose
tied entries sit in reverse alphabetical order. -/
theorem C3_witness :
    (printLongestWord [] = none ∧ printLongestLine [] = none) ∧
    ((∀ e ∈ [WORD.mk [98] 1 1 0, WORD.mk [97] 1 1 1], e.numChars ≤ 1) ∧
      (∃ e ∈ [WORD.mk [98] 1 1 0, WORD.mk [97] 1 1 1], e.numChars = 1) ∧
      List.Perm [WORD.mk [97] 1 1 1, WORD.mk [98] 1 1 0]
        (List.filter (fun e => e.numChars == 1)
          [WORD.mk [98] 1 1 0, WORD.mk [97] 1 1 1]) ∧
      List.Pairwise leW [WORD.mk [97] 1 1 1, WORD.mk [98] 1 1 0]) :=
  ⟨(C3_longest []).1 rfl,
    (C3_longest [WORD.mk [98] 1 1 0, WORD.mk [97] 1 1 1]).2 1
      [WORD.mk [97] 1 1 1, WORD.mk [98] 1 1 0] (Or.inl (by decide))⟩

theorem tallyStep_freq (t : CharTally) (pos c i : Nat) :
    (tallyStep t pos c).freq i = if i = c then t.freq i + 1 else t.freq i := by
  by_cases h : t.freq c = 0
  · rw [tallyStep, if_pos h]
  · rw [tallyStep, if_neg h]

theorem tallyGo_freq : ∀ (s : List Nat) (pos : Nat) (t : CharTally) (i : Nat),
    (tallyGo s pos t).freq i = t.freq i + s.count i := by
  intro s
  induction s with
  | nil => intro pos t i; simp [tallyGo]
  | cons c rest ih =>
      intro pos t i
      simp only [tallyGo]
      rw [ih, tallyStep_freq, List.count_cons]
      by_cases h : i = c
      · subst h
        simp
        omega
      · simp [h, Ne.symm h]

theorem countP_range_bump (c : Nat) (p q : Nat → Bool) : ∀ n : Nat, c < n →
    (∀ i, i ≠ c → q i = p i) → p c = false → q c = true →
    (List.range n).countP q = (List.range n).countP p + 1 := by
  intro n
  induction n with
  | zero => omega
  | succ m ih =>
      intro hc hne hp hq
      rw [List.range_succ, List.countP_append, List.countP_append]
      by_cases h : c = m
      · have hcongr : (List.range m).countP q = (List.range m).countP p := by
          apply List.countP_congr
          intro i hi
          have hic : i ≠ c := by
            have := List.mem_range.mp hi
            omega
          rw [hne i hic]
        have h1 : List.countP q [m] = 1 := by
          simp [List.countP_cons, h ▸ hq]
        have h2 : List.countP p [m] = 0 := by
          simp [List.countP_cons, h ▸ hp]
        omega
      · have hcm : c < m := by omega
        have h3 : List.countP q [m] = List.countP p [m] := by
          simp [List.countP_cons, hne m (fun hmc => h hmc.symm)]
        have := ih hcm hne hp hq
        omega

theorem tallyStep_unique {t : CharTally} (pos c : Nat) (hc : c < 128)
    (ht : t.unique = (List.range 128).countP (fun i => t.freq i != 0)) :
    (tallyStep t pos c).unique =
      (List.range 128).countP (fun i => (tallyStep t pos c).freq i != 0) := by
  by_cases h : t.freq c = 0
  · have huniq : (tallyStep t pos c).unique = t.unique + 1 := by
      unfold tallyStep
      rw [if_pos h]
  -- the predicate flips from false to true exactly at index c
    rw [huniq, ht,
      countP_range_bump c (fun i => t.freq i != 0)
        (fun i => (tallyStep t pos c).freq i != 0) 128 hc
        (fun i hi => by
          show ((tallyStep t pos c).freq i != 0) = (t.freq i != 0)
          rw [tallyStep_freq, if_neg hi])
        (by simp [h])
        (by
          show ((tallyStep t pos c).freq c != 0) = true
          rw [tallyStep_freq, if_pos rfl]
          simp)]
  · have huniq : (tallyStep t pos c).unique = t.unique := by
      unfold tallyStep
      rw [if_neg h]
    rw [huniq, ht]
    apply List.countP_congr
    intro i _
    rw [tallyStep_freq]
    by_cases hi : i = c
    · subst hi
      simp [h]
    · rw [if_neg hi]

theorem tallyGo_unique : ∀ (s : List Nat) (pos : Nat) (t : CharTally),
    (∀ c ∈ s, c < 128) →
    t.unique = (List.range 128).countP (fun i => t.freq i != 0) →
    (tallyGo s pos t).unique =
      (List.range 128).countP (fun i => (tallyGo s pos t).freq i != 0) := by
  intro s
  induction s with
  | nil => intro pos t _ ht; exact ht
  | cons c rest ih =>
      intro pos t hs ht
      simp only [tallyGo]
      exact ih (pos + 1) _ (fun c' hc' => hs c' (List.mem_cons_of_mem c hc'))
        (tallyStep_unique pos c (hs c (by simp)) ht)

theorem rows_sum_aux (t : CharTally) : ∀ ns : List Nat,
    ((ns.filterMap (fun i => if t.freq i > 0
        then some (i, t.freq i, t.firstPos i) else none)).map
      (fun r => r.2.1)).sum = (ns.map t.freq).sum := by
  intro ns
  induction ns with
  | nil => simp
  | cons i rest ih =>
      by_cases h : t.freq i > 0
      · simp [List.filterMap_cons, h, ih]
      · have h0 : t.freq i = 0 := by omega
        simp [List.filterMap_cons, h, h0, ih]

theorem rows_length_aux (t : CharTally) : ∀ ns : List Nat,
    (ns.filterMap (fun i => if t.freq i > 0
        then some (i, t.freq i, t.firstPos i) else none)).length =
      ns.countP (fun i => t.freq i != 0) := by
  intro ns
  induction ns with
  | nil => simp
  | cons i rest ih =>
      by_cases h : t.freq i > 0
      · have hb : (t.freq i != 0) = true := by
          simp
          omega
        simp [List.filterMap_cons, h, List.countP_cons, hb, ih]
      · have hb : (t.freq i != 0) = false := by
          simp
          omega
        simp [List.filterMap_cons, h, List.countP_cons, hb, ih]

theorem rows_sorted_aux (t : CharTally) : ∀ ns : List Nat,
    ns.Pairwise (· < ·) →
    (ns.filterMap (fun i => if t.freq i > 0
        then some (i, t.freq i, t.firstPos i) else none)).Pairwise
      (fun a b => a.1 < b.1) := by
  intro ns
  induction ns with
  | nil => intro _; simp
  | cons i rest ih =>
      intro hp
      have h1 := List.pairwise_cons.mp hp
      rw [List.filterMap_cons]
      by_cases h : t.freq i > 0
      · rw [if_pos h]
        refine List.pairwise_cons.mpr ⟨?_, ih h1.2⟩
        intro r hr
        rcases List.mem_filterMap.mp hr with ⟨a, ha, hfa⟩
        have hra : r.1 = a := by
          by_cases h' : t.freq a > 0
          · rw [if_pos h'] at hfa
            rw [← Option.some.inj hfa]
          · rw [if_neg h'] at hfa
            cases hfa
        rw [hra]
        exact h1.1 a ha
      · rw [if_neg h]
        exact ih h1.2

theorem map_sum_add (f g : Nat → Nat) : ∀ ns : List Nat,
    (ns.map (fun i => f i + g i)).sum = (ns.map f).sum + (ns.map g).sum := by
  intro ns
  induction ns with
  | nil => simp
  | cons a rest ih =>
      simp [ih]
      omega

theorem indicator_sum_zero (x : Nat) : ∀ ns : List Nat, (∀ i ∈ ns, x ≠ i) →
    (ns.map (fun i => if x = i then 1 else 0)).sum = 0 := by
  intro ns
  induction ns with
  | nil => intro _; simp
  | cons a rest ih =>
      intro h
      have ha : x ≠ a := h a (by simp)
      simp [ha, ih (fun i hi => h i (List.mem_cons_of_mem a hi))]

theorem indicator_sum (x : Nat) : ∀ n : Nat, x < n →
    ((List.range n).map (fun i => if x = i then 1 else 0)).sum = 1 := by
  intro n
  induction n with
  | zero => omega
  | succ m ih =>
      intro hx
      rw [List.range_succ, List.map_append, List.sum_append]
      by_cases h : x = m
      · have hz : ((List.range m).map
            (fun i => if x = i then 1 else 0)).sum = 0 := by
          apply indicator_sum_zero
          intro i hi
          have := List.mem_range.mp hi
          omega
        rw [hz]
        simp [h]
      · have hxm : x < m := by omega
        simp [ih hxm, h]

theorem sum_count_range (n : Nat) : ∀ s : List Nat, (∀ c ∈ s, c < n) →
    ((List.range n).map (fun i => s.count i)).sum = s.length := by
  intro s
  induction s with
  | nil => intro _; simp
  | cons x rest ih =>
      intro h
      have hx : x < n := h x (by simp)
      have hrest := ih (fun c hc => h c (List.mem_cons_of_mem x hc))
      have hfun : (fun i => (x :: rest).count i) =
          fun i => rest.count i + if x = i then 1 else 0 :=
        funext (fun i => by rw [List.count_cons]; simp)
      rw [hfun, map_sum_add, hrest, indicator_sum x n hx]
      simp

/-- C6: for every input of bytes 0..127, the character section lists its
rows in ascending byte value, the listed counts sum to the reported total
character count, that total equals the input's byte length, and the number
of listed rows equals the reported unique count. -/
theorem C6_char_section (s : List Nat) (hs : ∀ c ∈ s, c < 128) :
    ((charSection s).2.2).Pairwise (fun a b => a.1 < b.1) ∧
    (((charSection s).2.2).map (fun r => r.2.1)).sum = (charSection s).1 ∧
    (charSection s).1 = s.length ∧
    ((charSection s).2.2).length = (charSection s).2.1 := by
  refine ⟨rows_sorted_aux _ _ (List.pairwise_lt_range 128), ?_, rfl, ?_⟩
  · show ((charRows (analyzeCharacters s)).map (fun r => r.2.1)).sum = s.length
    unfold charRows
    rw [rows_sum_aux]
    have hfun : (List.range 128).map (analyzeCharacters s).freq =
        (List.range 128).map (fun i => s.count i) := by
      apply List.map_congr_left
      intro i _
      unfold analyzeCharacters
      rw [tallyGo_freq]
      simp
    rw [hfun, sum_count_range 128 s hs]
  · show (charRows (analyzeCharacters s)).length = (analyzeCharacters s).unique
    unfold charRows
    rw [rows_length_aux]
    symm
    unfold analyzeCharacters
    apply tallyGo_unique s 0 _ hs
    simp

/-- Witness for C6 on the input "hih". -/
theorem C6_witness :
    ((charSection [104, 105, 104]).2.2).Pairwise (fun a b => a.1 < b.1) ∧
    (((charSection [104, 105, 104]).2.2).map (fun r => r.2.1)).sum =
      (charSection [104, 105, 104]).1 ∧
    (charSection [104, 105, 104]).1 = [104, 105, 104].length ∧
    ((charSection [104, 105, 104]).2.2).length =
      (charSection [104, 105, 104]).2.1 :=
  C6_char_section [104, 105, 104] (by decide)

theorem render_false_eq (st : RenderState) : ∀ fo : List FlagKind,
    render st fo false = tailChunks st fo := by
  intro fo
  induction fo with
  | nil => rfl
  | cons g rest ih =>
      simp only [render, tailChunks]
      cases h : emits st g <;> simp [h, ih]

theorem render_true_eq (st : RenderState) : ∀ fo : List FlagKind,
    render st fo true = specRender st fo := by
  intro fo
  induction fo with
  | nil => rfl
  | cons f rest ih =>
      simp only [render, specRender]
      cases h : emits st f <;> simp [h, ih, render_false_eq]

theorem filterMap_tailChunks (st : RenderState) : ∀ fo : List FlagKind,
    (tailChunks st fo).filterMap chunkSec = fo.filter (emits st) := by
  intro fo
  induction fo with
  | nil => rfl
  | cons g rest ih =>
      simp only [tailChunks, List.filterMap_cons, List.filterMap_append]
      cases h : emits st g <;>
        simp [h, ih, chunkSec, List.filter_cons]

/-- C2 (amended): for every valid request the report sections appear in
exactly the order the flags were first given; the word and line sections
are emitted even when their collections are empty (showing zero totals),
while empty longest-word / longest-line kinds contribute no section; one
blank line is printed before every requested kind after the first emitted
section, whether or not that kind emits — so a skipped kind still leaves
its separator blank line (dangling or doubled). -/
theorem C2_sections_amended :
    (∀ (st : RenderState) (fo : List FlagKind),
      render st fo true = specRender st fo) ∧
    (∀ (st : RenderState) (fo : List FlagKind),
      (render st fo true).filterMap chunkSec = fo.filter (emits st)) := by
  have h2 : ∀ (st : RenderState) (fo : List FlagKind),
      (specRender st fo).filterMap chunkSec = fo.filter (emits st) := by
    intro st fo
    induction fo with
    | nil => rfl
    | cons f rest ih =>
        simp only [specRender]
        cases h : emits st f
        · simp [h, ih, List.filter_cons]
        · simp [h, List.filter_cons, List.filterMap_cons, chunkSec,
            filterMap_tailChunks]
  exact ⟨render_true_eq,
    fun st fo => by rw [render_true_eq, h2]⟩

/-- C2 counterexample: for the valid request `-f in -w -Lw` on the
one-byte file " " (word collection empty), the program's report is the
zero-total word section followed by a dangling blank line — not the
claim's prediction, where the empty word kind is skipped and no blank
appears. -/
theorem C2_counterexample :
    (analyzeFile fs0 req0).1 ≠
      (List.intersperse Chunk.blank
        (([FlagKind.W, FlagKind.LW].filter
          (specEmits (stateFor req0 [32]))).map Chunk.sec)).map Ev.out := by
  decide

/-- C7: a request naming a zero-byte input file emits exactly the
InputFileEmpty error, produces no report output and no output-file open,
and exits 1, whatever flags were requested — the emptiness check
pre-empts all analysis. -/
theorem C7_empty_input (fs : FS) (req : Request)
    (h : fs.input req.inputFile = some []) :
    analyzeFile fs req = ([Ev.err Err.inputFileEmpty], false) ∧
    runSingle fs req = ([Ev.err Err.inputFileEmpty], 1) := by
  have h1 : analyzeFile fs req = ([Ev.err Err.inputFileEmpty], false) := by
    unfold analyzeFile
    rw [h]
    exact rfl
  refine ⟨h1, ?_⟩
  unfold runSingle
  rw [h1]
  exact rfl

/-- Witness for C7: every flag requested, output file given, input file
zero bytes. -/
theorem C7_witness :
    analyzeFile fsEmpty reqAll = ([Ev.err Err.inputFileEmpty], false) ∧
    runSingle fsEmpty reqAll = ([Ev.err Err.inputFileEmpty], 1) :=
  C7_empty_input fsEmpty reqAll rfl

/-- C10: when the input cannot be opened or is empty, the run fails
before the `-o` sink is opened: no open-output event occurs on those
error paths, so a pre-existing file named by `-o` is neither truncated
nor written. -/
theorem C10_no_output_open (fs : FS) (req : Request)
    (h : fs.input req.inputFile = none ∨ fs.input req.inputFile = some []) :
    Ev.openOut ∉ (analyzeFile fs req).1 := by
  rcases h with h | h <;>
    · unfold analyzeFile
      rw [h]
      simp

/-- Witness for C10 on both error paths. -/
theorem C10_witness :
    Ev.openOut ∉ (analyzeFile fsNone reqAll).1 ∧
    Ev.openOut ∉ (analyzeFile fsEmpty reqAll).1 :=
  ⟨C10_no_output_open fsNone reqAll (Or.inl rfl),
   C10_no_output_open fsEmpty reqAll (Or.inr rfl)⟩

theorem batchLines_eq_flatMap (fs : FS) : ∀ ls : List (List Nat),
    batchLines fs ls = ls.flatMap (perLine fs) := by
  intro ls
  induction ls with
  | nil => rfl
  | cons l rest ih => simp [batchLines, ih]

/-- C8: batch mode always exits 0 whatever the control file holds; the
event stream of a readable non-empty batch is the concatenation of the
independent per-line streams, so a parse or runtime error on one line
never aborts later lines; concretely, a batch with one invalid and one
valid line yields the invalid line's error followed by the valid line's
report. -/
theorem C8_batch_always_exits_zero :
    (∀ (fs : FS) (a0 bname : List Nat) (rest : List (List Nat)),
      mainModel fs (a0 :: bStr :: bname :: rest) =
        (processBatchFile fs bname, 0)) ∧
    (∀ (fs : FS) (name s : List Nat), fs.input name = some s → s ≠ [] →
      processBatchFile fs name = (linesOf s).flatMap (perLine fs)) ∧
    processBatchFile fsB [98] =
      [Ev.err Err.invalidFlag, Ev.out (Chunk.sec FlagKind.W)] := by
  refine ⟨?_, ?_, by decide⟩
  · intro fs a0 bname rest
    simp [mainModel]
  · intro fs name s h hne
    unfold processBatchFile
    rw [h]
    show (if s.length = 0 then [Ev.err Err.batchEmpty]
      else batchLines fs (linesOf s)) = (linesOf s).flatMap (perLine fs)
    rw [if_neg (fun hc => hne (List.length_eq_zero.mp hc))]
    exact batchLines_eq_flatMap fs _

/-- Witness for C8 with the two-line batch file of `fsB`. -/
theorem C8_witness :
    mainModel fsB [[109], bStr, [98]] = (processBatchFile fsB [98], 0) ∧
    processBatchFile fsB [98] =
      (linesOf [45, 122, 32, 120, 10, 45, 102, 32, 105, 110, 32, 45, 119,
        10]).flatMap (perLine fsB) :=
  ⟨C8_batch_always_exits_zero.1 fsB [109] [98] [],
   C8_batch_always_exits_zero.2.1 fsB [98] _ rfl (by decide)⟩

/-- C9 counterexample: for the batch file holding the single line "-c",
whitespace-tokenization plus unconditional validation (the claim's
reading) would surface a NoInputFile error, but the program skips lines
yielding fewer than two tokens and produces no events at all. -/
theorem C9_counterexample :
    processBatchFile fs9 [98] = [] ∧
    (linesOf [45, 99, 10]).flatMap (specPerLine fs9) =
      [Ev.err Err.noInputFile] ∧
    processBatchFile fs9 [98] ≠
      (linesOf [45, 99, 10]).flatMap (specPerLine fs9) :=
  ⟨by decide, by decide, by decide⟩

/-- C9 (amended): the batch driver processes the control file line by
line; a non-empty line is cut at space bytes (only) into at most 100
tokens; Request Model validation and, on success, the full single-request
pipeline run exactly when the line yields at least two tokens; blank
lines — and lines with fewer than two tokens — are skipped without
error. -/
theorem C9_batch_line_amended :
    (∀ (fs : FS) (name s : List Nat), fs.input name = some s → s ≠ [] →
      processBatchFile fs name = (linesOf s).flatMap (perLine fs)) ∧
    (∀ (fs : FS) (line : List Nat),
      line = [] ∨ ((spaceTokens line).take 100).length < 2 →
      perLine fs line = []) ∧
    (∀ (fs : FS) (line : List Nat), line ≠ [] →
      2 ≤ ((spaceTokens line).take 100).length →
      perLine fs line =
        (match parseLoop ((spaceTokens line).take 100) initPS with
         | .error e => [Ev.err e]
         | .ok req => (analyzeFile fs req).1)) := by
  refine ⟨?_, ?_, ?_⟩
  · intro fs name s h hne
    unfold processBatchFile
    rw [h]
    show (if s.length = 0 then [Ev.err Err.batchEmpty]
      else batchLines fs (linesOf s)) = (linesOf s).flatMap (perLine fs)
    rw [if_neg (fun hc => hne (List.length_eq_zero.mp hc))]
    exact batchLines_eq_flatMap fs _
  · intro fs line h
    unfold perLine
    by_cases hl : line.length = 0
    · rw [if_pos hl]
    · rw [if_neg hl]
      rcases h with rfl | h
      · exact absurd rfl hl
      · rw [if_neg (by omega)]
  · intro fs line hne hlen
    unfold perLine
    rw [if_neg (fun hc => hne (List.length_eq_zero.mp hc)), if_pos hlen]

/-- Witness for C9 (amended) on the batch of `fsB` and a one-token
line. -/
theorem C9_witness :
    processBatchFile fsB [98] =
      (linesOf [45, 122, 32, 120, 10, 45, 102, 32, 105, 110, 32, 45, 119,
        10]).flatMap (perLine fsB) ∧
    perLine fs9 [45, 99] = [] :=
  ⟨C9_batch_line_amended.1 fsB [98] _ rfl (by decide),
   C9_batch_line_amended.2.1 fs9 [45, 99] (Or.inr (by decide))⟩
